import Mathlib

/-
  Verification development for csim.c, a set-associative LRU cache
  simulator.  The C program is embedded shallowly:

  * machine integers are modelled as `Nat`; the `unsigned long long`
    counter `use_counter` (and the `last_used` timestamps copied from it)
    wrap modulo 2^64, written explicitly as `% W64`;
  * the signed `int` counters `hit_count`, `miss_count`,
    `eviction_count` are modelled as `Nat` (signed overflow in C is
    undefined, so the model covers the defined executions);
  * the global mutable state of the C file becomes the record
    `SimState`, threaded explicitly through `access_data`;
  * the configuration globals `s`, `E`, `b` become the record `Config`;
  * the C `for` loops over a set's `E` lines become structural
    recursions over the list of lines (a set is a list of length `E`
    by construction);
  * `replay_trace` consumes the per-line result of `sscanf` abstractly:
    a trace is a list of `ParseResult`, where `malformed` stands for a
    line on which `sscanf(buf, " %c %llx,%d", ...)` did not return 3.
-/

/-- Width of the 64-bit machine words (`uint64_t`, `unsigned long long`). -/
def W64 : Nat := 2 ^ 64

/-- `ULLONG_MAX` from `<limits.h>`, the initial value of `min_used`
in the LRU scan of `access_data`. -/
def ULLONG_MAX : Nat := 2 ^ 64 - 1

/-- One cache line (`line_t` in csim.c): a valid bit, a tag and the
LRU timestamp `last_used`. -/
structure line_t where
  valid : Bool
  tag : Nat
  last_used : Nat
deriving DecidableEq

/-- The all-zero line every line is initialised to in `init_cache`
(`valid = 0`, `tag = 0`, `last_used = 0`); also used as the default
element for out-of-range list indexing. -/
def line0 : line_t := ⟨false, 0, 0⟩

/-- The configuration globals of csim.c after `main` has validated them:
`s` (set-index bits), `E` (associativity), `b` (block-offset bits). -/
structure Config where
  s : Nat
  E : Nat
  b : Nat
deriving DecidableEq

/-- The mutable global state of csim.c: the cache (a list of `2^s` sets,
each a list of `E` lines) together with the counters. -/
structure SimState where
  cache : List (List line_t)
  hit_count : Nat
  miss_count : Nat
  eviction_count : Nat
  use_counter : Nat
deriving DecidableEq

/-- `set_mask` in `access_data`: `0` when `s = 0`, else `(1ULL << s) - 1`. -/
def set_mask (s : Nat) : Nat := if 0 < s then 2 ^ s - 1 else 0

/-- `set_index` in `access_data`: `(addr >> b) & set_mask`. -/
def set_index (s b addr : Nat) : Nat := (addr >>> b) &&& set_mask s

/-- `tag` in `access_data`: `addr >> (b + s)`. -/
def tag_bits (s b addr : Nat) : Nat := addr >>> (b + s)

/-- The first `for` loop of `access_data`: index of the first line that
is valid and whose tag equals `tg`, if any. -/
def find_hit (tg : Nat) : List line_t → Option Nat
  | [] => none
  | l :: rest =>
      if l.valid && l.tag == tg then some 0
      else (find_hit tg rest).map (· + 1)

/-- The second `for` loop of `access_data`: index of the first invalid
line, if any. -/
def find_invalid : List line_t → Option Nat
  | [] => none
  | l :: rest =>
      if l.valid then (find_invalid rest).map (· + 1)
      else some 0

/-- The third `for` loop of `access_data`: starting from the accumulator
`(min_used, lru_index)` (initially `(ULLONG_MAX, 0)`), keep the index of
the first line whose `last_used` is strictly below the running minimum;
`i` is the index of the head of the remaining list. -/
def lru_scan : List line_t → Nat → Nat → Nat → Nat × Nat
  | [], _, min_used, lru_index => (min_used, lru_index)
  | l :: rest, i, min_used, lru_index =>
      if l.last_used < min_used then lru_scan rest (i + 1) l.last_used i
      else lru_scan rest (i + 1) min_used lru_index

/-- In-place update of the element at index `k` (the effect of writing
through `&set->lines[i]` resp. `&cache.sets[set_index]`); leaves the
list unchanged when `k` is out of range. -/
def modify_at {α : Type} : List α → Nat → (α → α) → List α
  | [], _, _ => []
  | x :: xs, 0, f => f x :: xs
  | x :: xs, k + 1, f => x :: modify_at xs k f

/-- `access_data(addr)` from csim.c.  Returns the new state and the
outcome code: `0` = hit, `1` = miss without eviction, `2` = miss with
eviction.  `use_counter` is incremented first (mod 2^64, it is an
`unsigned long long`); then the address is decomposed; then the three
scans run in order. -/
def access_data (cfg : Config) (st : SimState) (addr : Nat) : SimState × Nat :=
  let uc := (st.use_counter + 1) % W64
  let si := set_index cfg.s cfg.b addr
  let tg := tag_bits cfg.s cfg.b addr
  let set := st.cache.getD si []
  match find_hit tg set with
  | some i =>
      ({ st with
         use_counter := uc,
         hit_count := st.hit_count + 1,
         cache := modify_at st.cache si
           (fun ls => modify_at ls i (fun l => { l with last_used := uc })) }, 0)
  | none =>
      match find_invalid set with
      | some i =>
          ({ st with
             use_counter := uc,
             miss_count := st.miss_count + 1,
             cache := modify_at st.cache si
               (fun ls => modify_at ls i (fun _ => ⟨true, tg, uc⟩)) }, 1)
      | none =>
          let li := (lru_scan set 0 ULLONG_MAX 0).2
          ({ st with
             use_counter := uc,
             miss_count := st.miss_count + 1,
             eviction_count := st.eviction_count + 1,
             cache := modify_at st.cache si
               (fun ls => modify_at ls li
                 (fun l => { l with tag := tg, last_used := uc })) }, 2)

/-- The result of `sscanf(buf, " %c %llx,%d", &op, &addr, &size)` on one
trace line: `malformed` when fewer than 3 items matched (the line is
skipped by `continue`), otherwise the parsed operation character,
address and size. -/
inductive ParseResult where
  | malformed : ParseResult
  | parsed : Char → Nat → Int → ParseResult
deriving DecidableEq

/-- Number of `access_data` calls the body of the `while` loop in
`replay_trace` performs for one line: 2 for `M`, 1 for `L`/`S`, 0 for
malformed lines, `I` lines and unknown operation characters. -/
def op_accesses : ParseResult → Nat
  | ParseResult.malformed => 0
  | ParseResult.parsed op _ _ =>
      if op = 'I' then 0
      else if op = 'M' then 2
      else if op = 'L' ∨ op = 'S' then 1
      else 0

/-- The body of the `while` loop of `replay_trace` for one line,
returning the new state and the number of `access_data` calls made
(verbose printing is I/O and not modelled).  A malformed line hits the
`continue`; `I` hits its `continue`; `M` performs two `access_data`
calls on the same address; `L`/`S` perform one; any other operation
character matches no branch and does nothing. -/
def process_line (cfg : Config) (st : SimState) (r : ParseResult) : SimState × Nat :=
  match r with
  | ParseResult.malformed => (st, 0)
  | ParseResult.parsed op addr _ =>
      if op = 'I' then (st, 0)
      else if op = 'M' then
        let p1 := access_data cfg st addr
        let p2 := access_data cfg p1.1 addr
        (p2.1, 2)
      else if op = 'L' ∨ op = 'S' then
        ((access_data cfg st addr).1, 1)
      else (st, 0)

/-- `replay_trace`: fold the loop body over the (already line-split)
trace, accumulating the total number of `access_data` calls. -/
def replay_trace (cfg : Config) (st : SimState) : List ParseResult → SimState × Nat
  | [] => (st, 0)
  | r :: rest =>
      let p := process_line cfg st r
      let q := replay_trace cfg p.1 rest
      (q.1, p.2 + q.2)

/-- The state right after `init_cache` in `main`: `2^s` sets of `E`
lines each, all lines zeroed and invalid, all counters zero. -/
def initial_state (cfg : Config) : SimState :=
  { cache := List.replicate (2 ^ cfg.s) (List.replicate cfg.E line0),
    hit_count := 0,
    miss_count := 0,
    eviction_count := 0,
    use_counter := 0 }

/-- `init_cache` from csim.c, on the raw `int` value of `s` produced by
`atoi`: fails (calls `exit`) when `s >= 8 * sizeof(size_t) = 64`, else
builds `2^s` sets of `E` zeroed lines (allocation failure is not
modelled). -/
def init_cache (s E : Int) : Option (List (List line_t)) :=
  if 64 ≤ s then none
  else some (List.replicate (2 ^ s.toNat) (List.replicate E.toNat line0))

/-- Cache construction as performed by `main`: the argument check
`s < 0 || E <= 0 || b < 0` exits before `init_cache` runs; then
`init_cache` applies its own overflow guard. -/
def construct (s E b : Int) : Option (List (List line_t)) :=
  if s < 0 ∨ E ≤ 0 ∨ b < 0 then none
  else init_cache s E

-- Sanity checks: the example scenarios of the specification (s=0, E=1,
-- b=0 unless noted).
example :
    (replay_trace ⟨0, 1, 0⟩ (initial_state ⟨0, 1, 0⟩)
      [ParseResult.parsed 'L' 0 1, ParseResult.parsed 'L' 0 1]).1.hit_count = 1 := by
  decide

example :
    (replay_trace ⟨0, 1, 0⟩ (initial_state ⟨0, 1, 0⟩)
      [ParseResult.parsed 'L' 0 1, ParseResult.parsed 'L' 1 1]).1.eviction_count = 1 := by
  decide

example :
    (replay_trace ⟨0, 1, 0⟩ (initial_state ⟨0, 1, 0⟩)
      [ParseResult.parsed 'M' 0 1]).1
      = { cache := [[⟨true, 0, 2⟩]], hit_count := 1, miss_count := 1,
          eviction_count := 0, use_counter := 2 } := by
  decide

example :
    (replay_trace ⟨1, 1, 0⟩ (initial_state ⟨1, 1, 0⟩)
      [ParseResult.parsed 'L' 0 1, ParseResult.parsed 'L' 2 1,
       ParseResult.parsed 'L' 0 1]).1.miss_count = 3 := by
  decide

/- ------------------------- helper lemmas ------------------------- -/

theorem length_modify_at {α : Type} (l : List α) (k : Nat) (f : α → α) :
    (modify_at l k f).length = l.length := by
  induction l generalizing k with
  | nil => rfl
  | cons x xs ih =>
      cases k with
      | zero => rfl
      | succ k => simp [modify_at, ih]

theorem modify_at_oob {α : Type} (l : List α) (k : Nat) (f : α → α)
    (h : l.length ≤ k) : modify_at l k f = l := by
  induction l generalizing k with
  | nil => rfl
  | cons x xs ih =>
      cases k with
      | zero => simp at h
      | succ k =>
          simp only [List.length_cons, Nat.succ_le_succ_iff] at h
          simp [modify_at, ih _ h]

theorem getD_modify_at_eq {α : Type} (l : List α) (k : Nat) (f : α → α)
    (d : α) (h : k < l.length) :
    (modify_at l k f).getD k d = f (l.getD k d) := by
  induction l generalizing k with
  | nil => simp at h
  | cons x xs ih =>
      cases k with
      | zero => rfl
      | succ k =>
          simp only [List.length_cons, Nat.succ_lt_succ_iff] at h
          simp only [modify_at, List.getD_cons_succ]
          exact ih _ h

theorem getD_modify_at_ne {α : Type} (l : List α) (k j : Nat) (f : α → α)
    (d : α) (h : j ≠ k) :
    (modify_at l k f).getD j d = l.getD j d := by
  induction l generalizing k j with
  | nil => rfl
  | cons x xs ih =>
      cases k with
      | zero =>
          cases j with
          | zero => exact absurd rfl h
          | succ j => rfl
      | succ k =>
          cases j with
          | zero => rfl
          | succ j =>
              simp only [modify_at, List.getD_cons_succ]
              exact ih k j (fun hj => h (by omega))

theorem mem_modify_at {α : Type} (l : List α) (k : Nat) (f : α → α)
    (d : α) (x : α) (hx : x ∈ modify_at l k f) :
    x ∈ l ∨ (k < l.length ∧ x = f (l.getD k d)) := by
  induction l generalizing k with
  | nil => simp [modify_at] at hx
  | cons y ys ih =>
      cases k with
      | zero =>
          simp only [modify_at, List.mem_cons] at hx
          rcases hx with hx | hx
          · exact Or.inr ⟨by simp, by simpa using hx⟩
          · exact Or.inl (List.mem_cons_of_mem _ hx)
      | succ k =>
          simp only [modify_at, List.mem_cons] at hx
          rcases hx with hx | hx
          · exact Or.inl (hx ▸ List.mem_cons_self _ _)
          · rcases ih k hx with h | ⟨hk, hxe⟩
            · exact Or.inl (List.mem_cons_of_mem _ h)
            · exact Or.inr ⟨by simpa using Nat.succ_lt_succ hk, by simpa using hxe⟩

theorem find_hit_none {tg : Nat} {ls : List line_t}
    (h : ∀ l ∈ ls, ¬(l.valid = true ∧ l.tag = tg)) : find_hit tg ls = none := by
  induction ls with
  | nil => rfl
  | cons l rest ih =>
      have hl := h l (List.mem_cons_self _ _)
      have : (l.valid && l.tag == tg) = false := by
        cases hv : l.valid with
        | false => simp
        | true =>
            simp only [Bool.true_and, beq_iff_eq]
            by_contra ht
            simp only [Bool.not_eq_false, beq_iff_eq] at ht
            exact hl ⟨hv, ht⟩
      simp [find_hit, this, ih (fun l hm => h l (List.mem_cons_of_mem _ hm))]

theorem find_hit_none_elem {tg : Nat} {ls : List line_t}
    (h : find_hit tg ls = none) :
    ∀ l ∈ ls, ¬(l.valid = true ∧ l.tag = tg) := by
  induction ls with
  | nil => simp
  | cons l rest ih =>
      by_cases hc : (l.valid && l.tag == tg) = true
      · simp [find_hit, hc] at h
      · simp only [find_hit, if_neg hc] at h
        cases hfr : find_hit tg rest with
        | some j => rw [hfr] at h; simp at h
        | none =>
            intro x hx
            rcases List.mem_cons.mp hx with hx | hx
            · subst hx
              intro ⟨hv, ht⟩
              exact hc (by simp [hv, ht])
            · exact ih hfr x hx

theorem find_hit_some {tg : Nat} {ls : List line_t} {i : Nat}
    (h : find_hit tg ls = some i) :
    i < ls.length ∧ (ls.getD i line0).valid = true ∧ (ls.getD i line0).tag = tg := by
  induction ls generalizing i with
  | nil => simp [find_hit] at h
  | cons l rest ih =>
      by_cases hc : (l.valid && l.tag == tg) = true
      · simp only [find_hit, if_pos hc, Option.some.injEq] at h
        subst h
        simp only [Bool.and_eq_true, beq_iff_eq] at hc
        simpa using hc
      · simp only [find_hit, if_neg hc] at h
        cases hfr : find_hit tg rest with
        | none => rw [hfr] at h; simp at h
        | some j =>
            rw [hfr] at h
            simp only [Option.map_some', Option.some.injEq] at h
            subst h
            obtain ⟨h1, h2, h3⟩ := ih hfr
            exact ⟨by simpa using Nat.succ_lt_succ h1, by simpa using h2,
              by simpa using h3⟩

theorem find_invalid_none {ls : List line_t}
    (h : find_invalid ls = none) : ∀ l ∈ ls, l.valid = true := by
  induction ls with
  | nil => simp
  | cons l rest ih =>
      cases hv : l.valid with
      | false => simp [find_invalid, hv] at h
      | true =>
          simp only [find_invalid, hv, if_pos] at h
          cases hfr : find_invalid rest with
          | some j => rw [hfr] at h; simp at h
          | none =>
              intro x hx
              rcases List.mem_cons.mp hx with hx | hx
              · exact hx ▸ hv
              · exact ih hfr x hx

theorem find_invalid_of_all_valid {ls : List line_t}
    (h : ∀ l ∈ ls, l.valid = true) : find_invalid ls = none := by
  induction ls with
  | nil => rfl
  | cons l rest ih =>
      have hv := h l (List.mem_cons_self _ _)
      simp [find_invalid, hv, ih (fun l hm => h l (List.mem_cons_of_mem _ hm))]

theorem find_invalid_some {ls : List line_t} {i : Nat}
    (h : find_invalid ls = some i) : i < ls.length := by
  induction ls generalizing i with
  | nil => simp [find_invalid] at h
  | cons l rest ih =>
      cases hv : l.valid with
      | false =>
          simp [find_invalid, hv] at h
          subst h
          simp
      | true =>
          simp only [find_invalid, hv, if_pos] at h
          cases hfr : find_invalid rest with
          | none => rw [hfr] at h; simp at h
          | some j =>
              rw [hfr] at h
              simp only [Option.map_some', Option.some.injEq] at h
              subst h
              simpa using Nat.succ_lt_succ (ih hfr)

theorem set_mask_le (s : Nat) : set_mask s ≤ 2 ^ s - 1 := by
  unfold set_mask
  split
  · exact Nat.le_refl _
  · exact Nat.zero_le _

theorem set_index_lt (s b addr : Nat) : set_index s b addr < 2 ^ s := by
  have h1 : set_index s b addr ≤ set_mask s := Nat.and_le_right
  have h2 : set_mask s ≤ 2 ^ s - 1 := set_mask_le s
  have h3 : 2 ^ s - 1 < 2 ^ s := by
    have := Nat.pos_pow_of_pos s (by omega : 0 < 2)
    omega
  omega

theorem getD_mem {α : Type} (l : List α) (n : Nat) (d : α) (h : n < l.length) :
    l.getD n d ∈ l := by
  induction l generalizing n with
  | nil => simp at h
  | cons x xs ih =>
      cases n with
      | zero => simp
      | succ n =>
          simp only [List.getD_cons_succ]
          exact List.mem_cons_of_mem _ (ih _ (by simpa using h))

/-- Full behaviour of the LRU scan loop, generalised over the
accumulator: either no element is strictly below the running minimum
(the accumulator is returned unchanged), or the result is the first
element attaining the minimum of the list. -/
theorem lru_scan_spec (ls : List line_t) (i0 m j : Nat) :
    ((lru_scan ls i0 m j).1 = m ∧ (lru_scan ls i0 m j).2 = j
       ∧ ∀ l ∈ ls, m ≤ l.last_used)
    ∨ (∃ k, k < ls.length
        ∧ (lru_scan ls i0 m j).2 = i0 + k
        ∧ (lru_scan ls i0 m j).1 = (ls.getD k line0).last_used
        ∧ (lru_scan ls i0 m j).1 < m
        ∧ (∀ k', k' < ls.length →
            (lru_scan ls i0 m j).1 ≤ (ls.getD k' line0).last_used)
        ∧ (∀ k', k' < k →
            (lru_scan ls i0 m j).1 < (ls.getD k' line0).last_used)) := by
  induction ls generalizing i0 m j with
  | nil => exact Or.inl ⟨rfl, rfl, by simp⟩
  | cons l rest ih =>
      by_cases hl : l.last_used < m
      · have heq : lru_scan (l :: rest) i0 m j
            = lru_scan rest (i0 + 1) l.last_used i0 := by
          simp [lru_scan, hl]
        rcases ih (i0 + 1) l.last_used i0 with ⟨h1, h2, h3⟩ |
          ⟨k, hk, h2, h3, h4, h5, h6⟩
        · refine Or.inr ⟨0, by simp, ?_, ?_, ?_, ?_, ?_⟩
          · rw [heq, h2]; omega
          · rw [heq, h1]; simp
          · rw [heq, h1]; exact hl
          · intro k' hk'
            rw [heq, h1]
            cases k' with
            | zero => simp
            | succ k' =>
                simp only [List.getD_cons_succ]
                exact h3 _ (getD_mem rest k' line0 (by simpa using hk'))
          · intro k' hk'
            omega
        · refine Or.inr ⟨k + 1, by simpa using Nat.succ_lt_succ hk, ?_, ?_, ?_, ?_, ?_⟩
          · rw [heq, h2]; omega
          · rw [heq, h3]; simp
          · rw [heq]; omega
          · intro k' hk'
            rw [heq]
            cases k' with
            | zero => simpa using Nat.le_of_lt h4
            | succ k' =>
                simp only [List.getD_cons_succ]
                exact h5 _ (by simpa using hk')
          · intro k' hk'
            rw [heq]
            cases k' with
            | zero => simpa using h4
            | succ k' =>
                simp only [List.getD_cons_succ]
                exact h6 _ (by omega)
      · have heq : lru_scan (l :: rest) i0 m j
            = lru_scan rest (i0 + 1) m j := by
          simp [lru_scan, hl]
        rcases ih (i0 + 1) m j with ⟨h1, h2, h3⟩ |
          ⟨k, hk, h2, h3, h4, h5, h6⟩
        · refine Or.inl ⟨by rw [heq, h1], by rw [heq, h2], ?_⟩
          intro x hx
          rcases List.mem_cons.mp hx with hx | hx
          · subst hx; omega
          · exact h3 x hx
        · refine Or.inr ⟨k + 1, by simpa using Nat.succ_lt_succ hk, ?_, ?_, ?_, ?_, ?_⟩
          · rw [heq, h2]; omega
          · rw [heq, h3]; simp
          · rw [heq]; exact h4
          · intro k' hk'
            rw [heq]
            cases k' with
            | zero => simp only [List.getD_cons_zero]; omega
            | succ k' =>
                simp only [List.getD_cons_succ]
                exact h5 _ (by simpa using hk')
          · intro k' hk'
            rw [heq]
            cases k' with
            | zero => simp only [List.getD_cons_zero]; omega
            | succ k' =>
                simp only [List.getD_cons_succ]
                exact h6 _ (by omega)

/-- The LRU scan, started on the real accumulator `(ULLONG_MAX, 0)`,
returns an in-range index whenever the set is nonempty. -/
theorem lru_scan_idx_lt (ls : List line_t) (hne : 0 < ls.length) :
    (lru_scan ls 0 ULLONG_MAX 0).2 < ls.length := by
  rcases lru_scan_spec ls 0 ULLONG_MAX 0 with ⟨_, h2, _⟩ | ⟨k, hk, h2, _⟩
  · omega
  · omega

/-- On a nonempty set whose timestamps all fit in 64 bits, the LRU scan
returns the lowest index attaining the minimal `last_used`. -/
theorem lru_scan_lowest (ls : List line_t) (hne : 0 < ls.length)
    (hbound : ∀ l ∈ ls, l.last_used ≤ ULLONG_MAX) :
    (∀ i, i < ls.length →
      (ls.getD (lru_scan ls 0 ULLONG_MAX 0).2 line0).last_used
        ≤ (ls.getD i line0).last_used)
    ∧ (∀ i, i < ls.length →
        (ls.getD i line0).last_used
          = (ls.getD (lru_scan ls 0 ULLONG_MAX 0).2 line0).last_used →
        (lru_scan ls 0 ULLONG_MAX 0).2 ≤ i) := by
  rcases lru_scan_spec ls 0 ULLONG_MAX 0 with ⟨h1, h2, h3⟩ |
    ⟨k, hk, h2, h3, h4, h5, h6⟩
  · constructor
    · intro i hi
      have hmem := getD_mem ls i line0 hi
      have hup := hbound _ hmem
      have hlo := h3 _ hmem
      have hmem0 := getD_mem ls (lru_scan ls 0 ULLONG_MAX 0).2 line0 (by omega)
      have hup0 := hbound _ hmem0
      have hlo0 := h3 _ hmem0
      omega
    · intro i hi _
      omega
  · have hj : (lru_scan ls 0 ULLONG_MAX 0).2 = k := by omega
    constructor
    · intro i hi
      rw [hj, ← h3]
      exact h5 _ hi
    · intro i hi heq
      rw [hj]
      by_contra hlt
      have := h6 i (by omega)
      rw [hj, ← h3] at heq
      omega

/-- Equation lemma for the hit branch of `access_data`. -/
theorem access_data_hit {cfg : Config} {st : SimState} {addr i : Nat}
    (h : find_hit (tag_bits cfg.s cfg.b addr)
          (st.cache.getD (set_index cfg.s cfg.b addr) []) = some i) :
    access_data cfg st addr =
      ({ st with
         use_counter := (st.use_counter + 1) % W64,
         hit_count := st.hit_count + 1,
         cache := modify_at st.cache (set_index cfg.s cfg.b addr)
           (fun ls => modify_at ls i
             (fun l => { l with last_used := (st.use_counter + 1) % W64 })) }, 0) := by
  simp only [access_data, h]

/-- Equation lemma for the miss-without-eviction branch of `access_data`. -/
theorem access_data_fill {cfg : Config} {st : SimState} {addr i : Nat}
    (h1 : find_hit (tag_bits cfg.s cfg.b addr)
          (st.cache.getD (set_index cfg.s cfg.b addr) []) = none)
    (h2 : find_invalid (st.cache.getD (set_index cfg.s cfg.b addr) []) = some i) :
    access_data cfg st addr =
      ({ st with
         use_counter := (st.use_counter + 1) % W64,
         miss_count := st.miss_count + 1,
         cache := modify_at st.cache (set_index cfg.s cfg.b addr)
           (fun ls => modify_at ls i
             (fun _ => ⟨true, tag_bits cfg.s cfg.b addr,
                        (st.use_counter + 1) % W64⟩)) }, 1) := by
  simp only [access_data, h1, h2]

/-- Equation lemma for the miss-with-eviction branch of `access_data`. -/
theorem access_data_evict {cfg : Config} {st : SimState} {addr : Nat}
    (h1 : find_hit (tag_bits cfg.s cfg.b addr)
          (st.cache.getD (set_index cfg.s cfg.b addr) []) = none)
    (h2 : find_invalid (st.cache.getD (set_index cfg.s cfg.b addr) []) = none) :
    access_data cfg st addr =
      ({ st with
         use_counter := (st.use_counter + 1) % W64,
         miss_count := st.miss_count + 1,
         eviction_count := st.eviction_count + 1,
         cache := modify_at st.cache (set_index cfg.s cfg.b addr)
           (fun ls => modify_at ls
             (lru_scan (st.cache.getD (set_index cfg.s cfg.b addr) []) 0 ULLONG_MAX 0).2
             (fun l => { l with tag := tag_bits cfg.s cfg.b addr,
                                last_used := (st.use_counter + 1) % W64 })) }, 2) := by
  simp only [access_data, h1, h2]

/-- Every `access_data` call increments exactly one of `hit_count` and
`miss_count`, and `eviction_count` exactly when the outcome is 2. -/
theorem access_counts (cfg : Config) (st : SimState) (addr : Nat) :
    ((access_data cfg st addr).2 = 0
      ∧ (access_data cfg st addr).1.hit_count = st.hit_count + 1
      ∧ (access_data cfg st addr).1.miss_count = st.miss_count
      ∧ (access_data cfg st addr).1.eviction_count = st.eviction_count)
    ∨ ((access_data cfg st addr).2 = 1
      ∧ (access_data cfg st addr).1.hit_count = st.hit_count
      ∧ (access_data cfg st addr).1.miss_count = st.miss_count + 1
      ∧ (access_data cfg st addr).1.eviction_count = st.eviction_count)
    ∨ ((access_data cfg st addr).2 = 2
      ∧ (access_data cfg st addr).1.hit_count = st.hit_count
      ∧ (access_data cfg st addr).1.miss_count = st.miss_count + 1
      ∧ (access_data cfg st addr).1.eviction_count = st.eviction_count + 1) := by
  cases h1 : find_hit (tag_bits cfg.s cfg.b addr)
      (st.cache.getD (set_index cfg.s cfg.b addr) []) with
  | some i => rw [access_data_hit h1]; left; simp
  | none =>
      cases h2 : find_invalid (st.cache.getD (set_index cfg.s cfg.b addr) []) with
      | some i => rw [access_data_fill h1 h2]; right; left; simp
      | none => rw [access_data_evict h1 h2]; right; right; simp

/-- `access_data` always bumps the global use counter (mod 2^64). -/
theorem access_uc (cfg : Config) (st : SimState) (addr : Nat) :
    (access_data cfg st addr).1.use_counter = (st.use_counter + 1) % W64 := by
  cases h1 : find_hit (tag_bits cfg.s cfg.b addr)
      (st.cache.getD (set_index cfg.s cfg.b addr) []) with
  | some i => rw [access_data_hit h1]
  | none =>
      cases h2 : find_invalid (st.cache.getD (set_index cfg.s cfg.b addr) []) with
      | some i => rw [access_data_fill h1 h2]
      | none => rw [access_data_evict h1 h2]

/-- Shape of the cache after one `access_data` call: exactly one line
of the target set is rewritten, by a function that never clears the
valid bit and stamps `last_used` with the fresh counter value. -/
theorem access_shape (cfg : Config) (st : SimState) (addr : Nat) :
    ∃ (k : Nat) (w : line_t → line_t),
      (access_data cfg st addr).1.cache
        = modify_at st.cache (set_index cfg.s cfg.b addr)
            (fun ls => modify_at ls k w)
      ∧ (∀ l, l.valid = true → (w l).valid = true)
      ∧ (∀ l, (w l).last_used = (st.use_counter + 1) % W64) := by
  cases h1 : find_hit (tag_bits cfg.s cfg.b addr)
      (st.cache.getD (set_index cfg.s cfg.b addr) []) with
  | some i =>
      refine ⟨i, fun l => { l with last_used := (st.use_counter + 1) % W64 },
        ?_, ?_, ?_⟩
      · rw [access_data_hit h1]
      · intro l hl; exact hl
      · intro l; rfl
  | none =>
      cases h2 : find_invalid (st.cache.getD (set_index cfg.s cfg.b addr) []) with
      | some i =>
          refine ⟨i, fun _ => ⟨true, tag_bits cfg.s cfg.b addr,
            (st.use_counter + 1) % W64⟩, ?_, ?_, ?_⟩
          · rw [access_data_fill h1 h2]
          · intro l _; rfl
          · intro l; rfl
      | none =>
          refine ⟨(lru_scan (st.cache.getD (set_index cfg.s cfg.b addr) [])
              0 ULLONG_MAX 0).2,
            fun l => { l with tag := tag_bits cfg.s cfg.b addr,
                              last_used := (st.use_counter + 1) % W64 },
            ?_, ?_, ?_⟩
          · rw [access_data_evict h1 h2]
          · intro l hl; exact hl
          · intro l; rfl

/-- Writing a valid line with tag `tg` at an in-range index `k` of a
set that previously had no valid line with tag `tg` makes `k` the index
found by the hit scan. -/
theorem find_hit_modify {tg : Nat} (w : line_t → line_t) (ls : List line_t) (k : Nat)
    (hw : ∀ l ∈ ls, (w l).valid = true ∧ (w l).tag = tg)
    (hnone : find_hit tg ls = none) (hk : k < ls.length) :
    find_hit tg (modify_at ls k w) = some k := by
  induction ls generalizing k with
  | nil => simp at hk
  | cons l rest ih =>
      have hl : ¬(l.valid && l.tag == tg) = true := by
        intro hc
        simp [find_hit, hc] at hnone
      have htail : find_hit tg rest = none := by
        cases hfr : find_hit tg rest with
        | none => rfl
        | some j =>
            simp only [find_hit, if_neg hl] at hnone
            rw [hfr] at hnone
            simp at hnone
      cases k with
      | zero =>
          obtain ⟨hwv, hwt⟩ := hw l (List.mem_cons_self _ _)
          simp [modify_at, find_hit, hwv, hwt]
      | succ k =>
          have hk' : k < rest.length := by simpa using hk
          simp only [modify_at, find_hit, if_neg hl]
          rw [ih k (fun l hm => hw l (List.mem_cons_of_mem _ hm)) htail hk']
          rfl

/-- Each `access_data` call increments the sum `hit_count + miss_count`
by exactly one. -/
theorem access_hm (cfg : Config) (st : SimState) (addr : Nat) :
    (access_data cfg st addr).1.hit_count + (access_data cfg st addr).1.miss_count
      = st.hit_count + st.miss_count + 1 := by
  rcases access_counts cfg st addr with ⟨_, h1, h2, _⟩ | ⟨_, h1, h2, _⟩ | ⟨_, h1, h2, _⟩ <;>
    omega

/-- Each `access_data` call preserves `eviction_count ≤ miss_count`. -/
theorem access_evmiss (cfg : Config) (st : SimState) (addr : Nat)
    (h : st.eviction_count ≤ st.miss_count) :
    (access_data cfg st addr).1.eviction_count
      ≤ (access_data cfg st addr).1.miss_count := by
  rcases access_counts cfg st addr with ⟨_, _, h2, h3⟩ | ⟨_, _, h2, h3⟩ | ⟨_, _, h2, h3⟩ <;>
    omega

/-- Per-line counter accounting: one loop iteration of `replay_trace`
adds its number of `access_data` calls to `hit_count + miss_count`,
and that number is `op_accesses`. -/
theorem process_hm (cfg : Config) (st : SimState) (r : ParseResult) :
    (process_line cfg st r).1.hit_count + (process_line cfg st r).1.miss_count
      = st.hit_count + st.miss_count + (process_line cfg st r).2
    ∧ (process_line cfg st r).2 = op_accesses r := by
  cases r with
  | malformed => simp [process_line, op_accesses]
  | parsed op addr sz =>
      by_cases hI : op = 'I'
      · simp [process_line, op_accesses, hI]
      · by_cases hM : op = 'M'
        · simp only [process_line, op_accesses, if_neg hI, if_pos hM]
          have h1 := access_hm cfg st addr
          have h2 := access_hm cfg (access_data cfg st addr).1 addr
          exact ⟨by omega, by trivial⟩
        · by_cases hLS : op = 'L' ∨ op = 'S'
          · simp only [process_line, op_accesses, if_neg hI, if_neg hM, if_pos hLS]
            have h1 := access_hm cfg st addr
            exact ⟨by omega, by trivial⟩
          · simp [process_line, op_accesses, hI, hM, hLS]

/-- One loop iteration preserves `eviction_count ≤ miss_count`. -/
theorem process_evmiss (cfg : Config) (st : SimState) (r : ParseResult)
    (h : st.eviction_count ≤ st.miss_count) :
    (process_line cfg st r).1.eviction_count
      ≤ (process_line cfg st r).1.miss_count := by
  cases r with
  | malformed => simpa [process_line] using h
  | parsed op addr sz =>
      by_cases hI : op = 'I'
      · simpa [process_line, hI] using h
      · by_cases hM : op = 'M'
        · simp only [process_line, if_neg hI, if_pos hM]
          exact access_evmiss cfg _ addr (access_evmiss cfg st addr h)
        · by_cases hLS : op = 'L' ∨ op = 'S'
          · simp only [process_line, if_neg hI, if_neg hM, if_pos hLS]
            exact access_evmiss cfg st addr h
          · simpa [process_line, hI, hM, hLS] using h

/-- Replaying a trace adds the total number of `access_data` calls to
`hit_count + miss_count`, and that total is the sum of the per-line
access counts. -/
theorem replay_hm (cfg : Config) (trace : List ParseResult) : ∀ st : SimState,
    ((replay_trace cfg st trace).1.hit_count
        + (replay_trace cfg st trace).1.miss_count
      = st.hit_count + st.miss_count + (replay_trace cfg st trace).2)
    ∧ (replay_trace cfg st trace).2 = (trace.map op_accesses).sum := by
  induction trace with
  | nil => intro st; simp [replay_trace]
  | cons r rest ih =>
      intro st
      simp only [replay_trace, List.map_cons, List.sum_cons]
      obtain ⟨h1, h2⟩ := process_hm cfg st r
      obtain ⟨h3, h4⟩ := ih (process_line cfg st r).1
      exact ⟨by omega, by omega⟩

/-- Replaying a trace preserves `eviction_count ≤ miss_count`. -/
theorem replay_evmiss (cfg : Config) (trace : List ParseResult) : ∀ st : SimState,
    st.eviction_count ≤ st.miss_count →
    (replay_trace cfg st trace).1.eviction_count
      ≤ (replay_trace cfg st trace).1.miss_count := by
  induction trace with
  | nil => intro st h; simpa [replay_trace] using h
  | cons r rest ih =>
      intro st h
      simp only [replay_trace]
      exact ih _ (process_evmiss cfg st r h)

theorem getD_replicate {α : Type} (n i : Nat) (x : α) :
    (List.replicate n x).getD i x = x := by
  induction n generalizing i with
  | zero => simp
  | succ n ih =>
      cases i with
      | zero => simp [List.replicate]
      | succ i => simp [List.replicate, ih i]

/-- A line that is valid before an `access_data` call is still valid
after it, at every position of every set. -/
theorem access_valid_mono (cfg : Config) (st : SimState) (addr si i : Nat)
    (hv : ((st.cache.getD si []).getD i line0).valid = true) :
    (((access_data cfg st addr).1.cache.getD si []).getD i line0).valid = true := by
  obtain ⟨k, w, hc, hwv, _⟩ := access_shape cfg st addr
  rw [hc]
  by_cases hs : si = set_index cfg.s cfg.b addr
  · subst hs
    by_cases hrange : set_index cfg.s cfg.b addr < st.cache.length
    · rw [getD_modify_at_eq _ _ _ _ hrange]
      by_cases hik : i = k
      · subst hik
        by_cases hkr : i < (st.cache.getD (set_index cfg.s cfg.b addr) []).length
        · rw [getD_modify_at_eq _ _ _ _ hkr]
          exact hwv _ hv
        · rw [modify_at_oob _ _ _ (by omega)]
          exact hv
      · rw [getD_modify_at_ne _ _ _ _ _ hik]
        exact hv
    · rw [modify_at_oob _ _ _ (by omega)]
      exact hv
  · rw [getD_modify_at_ne _ _ _ _ _ hs]
    exact hv

/-- Invariant on timestamps maintained by the simulation as long as the
64-bit use counter has not wrapped: every valid line was stamped at
least once and no later than the current counter value, and within a
set the valid lines carry pairwise distinct stamps. -/
def StampInv (st : SimState) : Prop :=
  (∀ ls ∈ st.cache, ∀ l ∈ ls, l.valid = true →
      1 ≤ l.last_used ∧ l.last_used ≤ st.use_counter)
  ∧ (∀ ls ∈ st.cache, ∀ i j, i < j → j < ls.length →
      (ls.getD i line0).valid = true → (ls.getD j line0).valid = true →
      (ls.getD i line0).last_used ≠ (ls.getD j line0).last_used)

/-- One `access_data` call preserves `StampInv` provided the use
counter does not wrap, and then increments it by exactly one. -/
theorem access_stampinv (cfg : Config) (st : SimState) (addr : Nat)
    (hI : StampInv st) (hw : st.use_counter + 1 < W64) :
    StampInv (access_data cfg st addr).1
    ∧ (access_data cfg st addr).1.use_counter = st.use_counter + 1 := by
  obtain ⟨hbound, hdist⟩ := hI
  have hucmod : (st.use_counter + 1) % W64 = st.use_counter + 1 :=
    Nat.mod_eq_of_lt hw
  have huc : (access_data cfg st addr).1.use_counter = st.use_counter + 1 := by
    rw [access_uc, hucmod]
  obtain ⟨k, w, hc, hwv, hwu⟩ := access_shape cfg st addr
  have hwu' : ∀ l, (w l).last_used = st.use_counter + 1 := fun l => by
    rw [hwu, hucmod]
  refine ⟨⟨?_, ?_⟩, huc⟩
  · -- stamp bounds
    intro ls hls l hl hval
    rw [huc]
    rw [hc] at hls
    rcases mem_modify_at _ _ _ ([] : List line_t) _ hls with hold | ⟨hsir, hnew⟩
    · obtain ⟨h1, h2⟩ := hbound ls hold l hl hval
      omega
    · subst hnew
      rcases mem_modify_at _ _ _ line0 _ hl with hold | ⟨hkr, hnew⟩
      · have hmem : st.cache.getD (set_index cfg.s cfg.b addr) [] ∈ st.cache :=
          getD_mem _ _ _ hsir
        obtain ⟨h1, h2⟩ := hbound _ hmem l hold hval
        omega
      · subst hnew
        rw [hwu']
        omega
  · -- distinct stamps within each set
    intro ls hls i j hij hjl hvi hvj
    rw [hc] at hls
    rcases mem_modify_at _ _ _ ([] : List line_t) _ hls with hold | ⟨hsir, hnew⟩
    · exact hdist ls hold i j hij hjl hvi hvj
    · subst hnew
      have hmem : st.cache.getD (set_index cfg.s cfg.b addr) [] ∈ st.cache :=
        getD_mem _ _ _ hsir
      by_cases hkr : k < (st.cache.getD (set_index cfg.s cfg.b addr) []).length
      all_goals rw [length_modify_at] at hjl
      case neg =>
          rw [modify_at_oob _ _ _ (by omega)] at hvi hvj ⊢
          exact hdist _ hmem i j hij hjl hvi hvj
      by_cases hik : i = k
      · subst hik
        have hjk : j ≠ i := by omega
        rw [getD_modify_at_eq _ _ _ _ hkr] at hvi ⊢
        rw [getD_modify_at_ne _ _ _ _ _ hjk] at hvj ⊢
        have hj2 := hbound _ hmem _ (getD_mem _ j _ hjl) hvj
        rw [hwu']
        omega
      · by_cases hjk : j = k
        · subst hjk
          rw [getD_modify_at_eq _ _ _ _ hkr] at hvj ⊢
          rw [getD_modify_at_ne _ _ _ _ _ hik] at hvi ⊢
          have hi2 := hbound _ hmem _
            (getD_mem _ i _ (by omega)) hvi
          rw [hwu']
          omega
        · rw [getD_modify_at_ne _ _ _ _ _ hik] at hvi ⊢
          rw [getD_modify_at_ne _ _ _ _ _ hjk] at hvj ⊢
          exact hdist _ hmem i j hij hjl hvi hvj

/-- One trace line preserves `StampInv` (no wrap) and advances the use
counter by its number of accesses. -/
theorem process_stampinv (cfg : Config) (st : SimState) (r : ParseResult)
    (hI : StampInv st)
    (hw : st.use_counter + (process_line cfg st r).2 < W64) :
    StampInv (process_line cfg st r).1
    ∧ (process_line cfg st r).1.use_counter
        = st.use_counter + (process_line cfg st r).2 := by
  cases r with
  | malformed => simpa [process_line] using hI
  | parsed op addr sz =>
      by_cases hparen : op = 'I'
      · simp only [process_line, if_pos hparen]
        simpa using hI
      · by_cases hM : op = 'M'
        · simp only [process_line, if_neg hparen, if_pos hM] at hw ⊢
          obtain ⟨hI1, huc1⟩ := access_stampinv cfg st addr hI (by omega)
          obtain ⟨hI2, huc2⟩ := access_stampinv cfg _ addr hI1 (by omega)
          exact ⟨hI2, by omega⟩
        · by_cases hLS : op = 'L' ∨ op = 'S'
          · simp only [process_line, if_neg hparen, if_neg hM, if_pos hLS] at hw ⊢
            obtain ⟨hI1, huc1⟩ := access_stampinv cfg st addr hI (by omega)
            exact ⟨hI1, by omega⟩
          · simp only [process_line, if_neg hparen, if_neg hM, if_neg hLS]
            simpa using hI

/-- Replaying a whole trace preserves `StampInv` as long as the total
number of accesses keeps the use counter below 2^64. -/
theorem replay_stampinv (cfg : Config) (trace : List ParseResult) : ∀ st : SimState,
    StampInv st →
    st.use_counter + (replay_trace cfg st trace).2 < W64 →
    StampInv (replay_trace cfg st trace).1
    ∧ (replay_trace cfg st trace).1.use_counter
        = st.use_counter + (replay_trace cfg st trace).2 := by
  induction trace with
  | nil => intro st hI _; simpa [replay_trace] using hI
  | cons r rest ih =>
      intro st hI hw
      simp only [replay_trace] at hw ⊢
      obtain ⟨hI1, huc1⟩ := process_stampinv cfg st r hI (by omega)
      obtain ⟨hI2, huc2⟩ := ih (process_line cfg st r).1 hI1 (by omega)
      exact ⟨hI2, by omega⟩

/-- The freshly constructed cache satisfies the timestamp invariant. -/
theorem initial_stampinv (cfg : Config) : StampInv (initial_state cfg) := by
  constructor
  · intro ls hls l hl hval
    simp only [initial_state, List.mem_replicate] at hls
    rw [hls.2] at hl
    simp only [List.mem_replicate] at hl
    rw [hl.2] at hval
    simp [line0] at hval
  · intro ls hls i j hij hjl hvi hvj
    simp only [initial_state, List.mem_replicate] at hls
    rw [hls.2] at hvi
    rw [getD_replicate] at hvi
    simp [line0] at hvi

/-- After a miss (with or without eviction) on `addr`, an immediately
following access to the same address is a hit, provided the cache is
well-formed (`2^s` sets of `E ≥ 1` lines). -/
theorem access_miss_then_hit (cfg : Config) (st : SimState) (addr : Nat)
    (hS : st.cache.length = 2 ^ cfg.s)
    (hwf : ∀ ls ∈ st.cache, ls.length = cfg.E)
    (hE : 1 ≤ cfg.E)
    (hm : (access_data cfg st addr).2 ≠ 0) :
    (access_data cfg (access_data cfg st addr).1 addr).2 = 0 := by
  have hsir : set_index cfg.s cfg.b addr < st.cache.length := by
    rw [hS]; exact set_index_lt cfg.s cfg.b addr
  have hmem : st.cache.getD (set_index cfg.s cfg.b addr) [] ∈ st.cache :=
    getD_mem _ _ _ hsir
  have hlen : (st.cache.getD (set_index cfg.s cfg.b addr) []).length = cfg.E :=
    hwf _ hmem
  cases h1 : find_hit (tag_bits cfg.s cfg.b addr)
      (st.cache.getD (set_index cfg.s cfg.b addr) []) with
  | some i =>
      rw [access_data_hit h1] at hm
      simp at hm
  | none =>
      cases h2 : find_invalid (st.cache.getD (set_index cfg.s cfg.b addr) []) with
      | some i =>
          have hi : i < (st.cache.getD (set_index cfg.s cfg.b addr) []).length :=
            find_invalid_some h2
          rw [access_data_fill h1 h2]
          have hfind2 : find_hit (tag_bits cfg.s cfg.b addr)
              (({ st with
                  use_counter := (st.use_counter + 1) % W64,
                  miss_count := st.miss_count + 1,
                  cache := modify_at st.cache (set_index cfg.s cfg.b addr)
                    (fun ls => modify_at ls i
                      (fun _ => ⟨true, tag_bits cfg.s cfg.b addr,
                                 (st.use_counter + 1) % W64⟩)) } :
                SimState).cache.getD (set_index cfg.s cfg.b addr) []) = some i := by
            show find_hit _ ((modify_at st.cache (set_index cfg.s cfg.b addr) _).getD
              (set_index cfg.s cfg.b addr) []) = some i
            rw [getD_modify_at_eq _ _ _ _ hsir]
            exact find_hit_modify _ _ i (fun l _ => ⟨rfl, rfl⟩) h1 hi
          rw [access_data_hit hfind2]
      | none =>
          have hall : ∀ l ∈ st.cache.getD (set_index cfg.s cfg.b addr) [],
              l.valid = true := find_invalid_none h2
          have hli : (lru_scan (st.cache.getD (set_index cfg.s cfg.b addr) [])
              0 ULLONG_MAX 0).2
              < (st.cache.getD (set_index cfg.s cfg.b addr) []).length :=
            lru_scan_idx_lt _ (by omega)
          rw [access_data_evict h1 h2]
          have hfind2 : find_hit (tag_bits cfg.s cfg.b addr)
              (({ st with
                  use_counter := (st.use_counter + 1) % W64,
                  miss_count := st.miss_count + 1,
                  eviction_count := st.eviction_count + 1,
                  cache := modify_at st.cache (set_index cfg.s cfg.b addr)
                    (fun ls => modify_at ls
                      (lru_scan (st.cache.getD (set_index cfg.s cfg.b addr) [])
                        0 ULLONG_MAX 0).2
                      (fun l => { l with tag := tag_bits cfg.s cfg.b addr,
                                         last_used := (st.use_counter + 1) % W64 })) } :
                SimState).cache.getD (set_index cfg.s cfg.b addr) [])
              = some (lru_scan (st.cache.getD (set_index cfg.s cfg.b addr) [])
                  0 ULLONG_MAX 0).2 := by
            show find_hit _ ((modify_at st.cache (set_index cfg.s cfg.b addr) _).getD
              (set_index cfg.s cfg.b addr) []) = _
            rw [getD_modify_at_eq _ _ _ _ hsir]
            exact find_hit_modify _ _ _ (fun l hl => ⟨hall l hl, rfl⟩) h1 hli
          rw [access_data_hit hfind2]

/-- Configuration `s = 0`, `E = 1`, `b = 0`: a single direct-mapped
line covering all addresses. -/
def cfg10 : Config := ⟨0, 1, 0⟩

/-- The trace line `L 0,1`. -/
def op10 : ParseResult := ParseResult.parsed 'L' 0 1

/-- Closed form of the simulation state after `k ≥ 1` repetitions of
`L 0,1` under `cfg10`: the single line holds tag 0 with stamp
`k mod 2^64`, and the counters record 1 miss and `k - 1` hits. -/
def st10 (k : Nat) : SimState :=
  { cache := [[⟨true, 0, k % W64⟩]],
    hit_count := k - 1,
    miss_count := 1,
    eviction_count := 0,
    use_counter := k % W64 }

theorem step10 (k : Nat) (hk : 1 ≤ k) :
    process_line cfg10 (st10 k) op10 = (st10 (k + 1), 1) := by
  have hL : process_line cfg10 (st10 k) op10 = ((access_data cfg10 (st10 k) 0).1, 1) := by
    simp [process_line, op10]
  rw [hL]
  have hfind : find_hit (tag_bits cfg10.s cfg10.b 0)
      ((st10 k).cache.getD (set_index cfg10.s cfg10.b 0) []) = some 0 := by
    simp [st10, cfg10, tag_bits, set_index, set_mask, find_hit]
  rw [access_data_hit hfind]
  have h1 : (k % W64 + 1) % W64 = (k + 1) % W64 := Nat.mod_add_mod k W64 1
  have h2 : k - 1 + 1 = k + 1 - 1 := by omega
  simp [st10, modify_at, set_index, cfg10, set_mask, h1, h2]

theorem chain10 (m : Nat) : ∀ k, 1 ≤ k →
    replay_trace cfg10 (st10 k) (List.replicate m op10) = (st10 (k + m), m) := by
  induction m with
  | zero => intro k hk; simp [replay_trace]
  | succ m ih =>
      intro k hk
      rw [List.replicate_succ]
      simp only [replay_trace]
      rw [step10 k hk]
      rw [ih (k + 1) (by omega)]
      have h1 : k + 1 + m = k + (m + 1) := by omega
      have h2 : 1 + m = m + 1 := by omega
      simp [h1, h2]

theorem first10 : process_line cfg10 (initial_state cfg10) op10 = (st10 1, 1) := by
  decide

theorem replay_cons (cfg : Config) (st : SimState) (r : ParseResult)
    (rest : List ParseResult) :
    replay_trace cfg st (r :: rest)
      = ((replay_trace cfg (process_line cfg st r).1 rest).1,
         (process_line cfg st r).2
           + (replay_trace cfg (process_line cfg st r).1 rest).2) := rfl

/-- After exactly `2^64` repetitions of `L 0,1`, the use counter has
wrapped back to 0 and the single valid line carries stamp 0. -/
theorem wrap10 :
    (replay_trace cfg10 (initial_state cfg10) (List.replicate W64 op10)).1
      = st10 W64 := by
  have hpos : 0 < W64 := Nat.pos_pow_of_pos 64 (by omega)
  have h0 : W64 = (W64 - 1) + 1 := by omega
  have hW : List.replicate W64 op10 = op10 :: List.replicate (W64 - 1) op10 := by
    nth_rewrite 1 [h0]
    rw [List.replicate_succ]
  rw [hW, replay_cons, first10]
  rw [chain10 (W64 - 1) 1 (by omega)]
  show st10 (1 + (W64 - 1)) = st10 W64
  have h1 : 1 + (W64 - 1) = W64 := by omega
  rw [h1]

/- ------------------------- claim theorems ------------------------- -/

/-- C1: Counter conservation — after replaying any trace from a freshly
constructed cache, `hit_count + miss_count` equals the total number of
`access_data` calls made, that total is the sum of per-line weights
(Modify 2, Load/Store 1, Instruction and malformed lines 0), and every
single `access_data` call increments exactly one of `hit_count` or
`miss_count`, exactly once. -/
theorem claim_c1_counter_conservation (cfg : Config) (trace : List ParseResult) :
    ((replay_trace cfg (initial_state cfg) trace).1.hit_count
        + (replay_trace cfg (initial_state cfg) trace).1.miss_count
      = (replay_trace cfg (initial_state cfg) trace).2)
    ∧ ((replay_trace cfg (initial_state cfg) trace).2
        = (trace.map op_accesses).sum)
    ∧ (∀ (st : SimState) (addr : Nat),
        ((access_data cfg st addr).1.hit_count = st.hit_count + 1
          ∧ (access_data cfg st addr).1.miss_count = st.miss_count)
        ∨ ((access_data cfg st addr).1.hit_count = st.hit_count
          ∧ (access_data cfg st addr).1.miss_count = st.miss_count + 1)) := by
  obtain ⟨h1, h2⟩ := replay_hm cfg trace (initial_state cfg)
  refine ⟨by simpa [initial_state] using h1, h2, ?_⟩
  intro st addr
  rcases access_counts cfg st addr with ⟨_, ha, hb, _⟩ | ⟨_, ha, hb, _⟩ | ⟨_, ha, hb, _⟩
  · exact Or.inl ⟨ha, hb⟩
  · exact Or.inr ⟨ha, hb⟩
  · exact Or.inr ⟨ha, hb⟩

/-- C2: LRU eviction with lowest-index tie-break — on a set whose `E`
lines are all valid and none matches the decomposed tag, `access_data`
returns the miss-with-eviction outcome and overwrites exactly the line
produced by the LRU scan, and that line's index is in range, attains
the minimal `last_used` of the set, and is the lowest index attaining
it. -/
theorem claim_c2_lru_eviction (cfg : Config) (st : SimState) (addr : Nat)
    (hlen : (st.cache.getD (set_index cfg.s cfg.b addr) []).length = cfg.E)
    (hE : 1 ≤ cfg.E)
    (hvalid : ∀ l ∈ st.cache.getD (set_index cfg.s cfg.b addr) [],
      l.valid = true)
    (hu64 : ∀ l ∈ st.cache.getD (set_index cfg.s cfg.b addr) [],
      l.last_used < 2 ^ 64)
    (hnomatch : ∀ l ∈ st.cache.getD (set_index cfg.s cfg.b addr) [],
      l.tag ≠ tag_bits cfg.s cfg.b addr) :
    (access_data cfg st addr).2 = 2
    ∧ (access_data cfg st addr).1.cache
        = modify_at st.cache (set_index cfg.s cfg.b addr)
            (fun ls => modify_at ls
              (lru_scan (st.cache.getD (set_index cfg.s cfg.b addr) [])
                0 ULLONG_MAX 0).2
              (fun l => { l with tag := tag_bits cfg.s cfg.b addr,
                                 last_used := (st.use_counter + 1) % W64 }))
    ∧ (lru_scan (st.cache.getD (set_index cfg.s cfg.b addr) [])
        0 ULLONG_MAX 0).2 < cfg.E
    ∧ (∀ i, i < cfg.E →
        ((st.cache.getD (set_index cfg.s cfg.b addr) []).getD
            (lru_scan (st.cache.getD (set_index cfg.s cfg.b addr) [])
              0 ULLONG_MAX 0).2 line0).last_used
          ≤ ((st.cache.getD (set_index cfg.s cfg.b addr) []).getD i line0).last_used)
    ∧ (∀ i, i < cfg.E →
        ((st.cache.getD (set_index cfg.s cfg.b addr) []).getD i line0).last_used
          = ((st.cache.getD (set_index cfg.s cfg.b addr) []).getD
              (lru_scan (st.cache.getD (set_index cfg.s cfg.b addr) [])
                0 ULLONG_MAX 0).2 line0).last_used →
        (lru_scan (st.cache.getD (set_index cfg.s cfg.b addr) [])
          0 ULLONG_MAX 0).2 ≤ i) := by
  have h1 : find_hit (tag_bits cfg.s cfg.b addr)
      (st.cache.getD (set_index cfg.s cfg.b addr) []) = none :=
    find_hit_none (fun l hl hc => hnomatch l hl hc.2)
  have h2 : find_invalid (st.cache.getD (set_index cfg.s cfg.b addr) []) = none :=
    find_invalid_of_all_valid hvalid
  have hpos : 0 < (st.cache.getD (set_index cfg.s cfg.b addr) []).length := by
    omega
  have hb : ∀ l ∈ st.cache.getD (set_index cfg.s cfg.b addr) [],
      l.last_used ≤ ULLONG_MAX := by
    intro l hl
    have := hu64 l hl
    simp only [ULLONG_MAX]
    omega
  obtain ⟨hle, htie⟩ := lru_scan_lowest _ hpos hb
  have hidx := lru_scan_idx_lt _ hpos
  rw [access_data_evict h1 h2]
  refine ⟨rfl, rfl, by omega, ?_, ?_⟩
  · intro i hi
    exact hle i (by omega)
  · intro i hi heq
    exact htie i (by omega) heq

/-- C2 witness: with a full 2-way set holding tags 5 and 6 (stamps 7
and 3) and an access with tag 9, the eviction outcome occurs. -/
theorem claim_c2_lru_eviction_witness :
    (access_data ⟨0, 2, 0⟩
      ⟨[[⟨true, 5, 7⟩, ⟨true, 6, 3⟩]], 0, 0, 0, 7⟩ 9).2 = 2 :=
  (claim_c2_lru_eviction ⟨0, 2, 0⟩
    ⟨[[⟨true, 5, 7⟩, ⟨true, 6, 3⟩]], 0, 0, 0, 7⟩ 9
    (by decide) (by decide) (by decide) (by decide) (by decide)).1

/-- C3: Modify hit-after-miss — a Modify line performs exactly two
`access_data` calls on the same address with nothing in between, and
whenever the first call misses (outcome 1 or 2), the second hits. -/
theorem claim_c3_modify_hit_after_miss (cfg : Config) (st : SimState)
    (addr : Nat) (sz : Int)
    (hS : st.cache.length = 2 ^ cfg.s)
    (hwf : ∀ ls ∈ st.cache, ls.length = cfg.E)
    (hE : 1 ≤ cfg.E) :
    process_line cfg st (ParseResult.parsed 'M' addr sz)
        = ((access_data cfg (access_data cfg st addr).1 addr).1, 2)
    ∧ ((access_data cfg st addr).2 ≠ 0 →
        (access_data cfg (access_data cfg st addr).1 addr).2 = 0) := by
  constructor
  · simp [process_line]
  · exact access_miss_then_hit cfg st addr hS hwf hE

/-- C3 witness: under `s=0, E=1, b=0`, the first sub-access of `M 0,1`
on the fresh cache misses and the second hits. -/
theorem claim_c3_modify_hit_after_miss_witness :
    (access_data ⟨0, 1, 0⟩
      (access_data ⟨0, 1, 0⟩ (initial_state ⟨0, 1, 0⟩) 0).1 0).2 = 0 :=
  (claim_c3_modify_hit_after_miss ⟨0, 1, 0⟩ (initial_state ⟨0, 1, 0⟩) 0 1
    (by decide) (by decide) (by decide)).2 (by decide)

/-- C4: Eviction is a subcase of miss — in every state reached by
replaying a trace from the fresh cache, `eviction_count ≤ miss_count`;
and an `access_data` call returns the miss-with-eviction outcome only
when all `E` lines of the target set were valid immediately before the
call. -/
theorem claim_c4_eviction_subset_miss (cfg : Config) (trace : List ParseResult)
    (st : SimState) (addr : Nat)
    (hlen : (st.cache.getD (set_index cfg.s cfg.b addr) []).length = cfg.E) :
    ((replay_trace cfg (initial_state cfg) trace).1.eviction_count
      ≤ (replay_trace cfg (initial_state cfg) trace).1.miss_count)
    ∧ ((access_data cfg st addr).2 = 2 →
        ∀ i, i < cfg.E →
          ((st.cache.getD (set_index cfg.s cfg.b addr) []).getD i line0).valid
            = true) := by
  constructor
  · exact replay_evmiss cfg trace (initial_state cfg) (by simp [initial_state])
  · intro h2 i hi
    cases hh : find_hit (tag_bits cfg.s cfg.b addr)
        (st.cache.getD (set_index cfg.s cfg.b addr) []) with
    | some j =>
        rw [access_data_hit hh] at h2
        simp at h2
    | none =>
        cases hinv : find_invalid (st.cache.getD (set_index cfg.s cfg.b addr) []) with
        | some j =>
            rw [access_data_fill hh hinv] at h2
            simp at h2
        | none =>
            exact find_invalid_none hinv _ (getD_mem _ i _ (by omega))

/-- C4 witness: two conflicting loads under `s=0, E=1, b=0` leave
`eviction_count ≤ miss_count`, and an evicting access on a full
direct-mapped set had its line valid beforehand. -/
theorem claim_c4_eviction_subset_miss_witness :
    ((replay_trace ⟨0, 1, 0⟩ (initial_state ⟨0, 1, 0⟩)
        [ParseResult.parsed 'L' 0 1, ParseResult.parsed 'L' 1 1]).1.eviction_count
      ≤ (replay_trace ⟨0, 1, 0⟩ (initial_state ⟨0, 1, 0⟩)
        [ParseResult.parsed 'L' 0 1, ParseResult.parsed 'L' 1 1]).1.miss_count)
    ∧ ((((⟨[[⟨true, 3, 1⟩]], 0, 1, 0, 1⟩ : SimState).cache.getD 0 []).getD 0
        line0).valid = true) :=
  ⟨(claim_c4_eviction_subset_miss ⟨0, 1, 0⟩
      [ParseResult.parsed 'L' 0 1, ParseResult.parsed 'L' 1 1]
      ⟨[[⟨true, 3, 1⟩]], 0, 1, 0, 1⟩ 0 (by decide)).1,
   (claim_c4_eviction_subset_miss ⟨0, 1, 0⟩
      [ParseResult.parsed 'L' 0 1, ParseResult.parsed 'L' 1 1]
      ⟨[[⟨true, 3, 1⟩]], 0, 1, 0, 1⟩ 0 (by decide)).2 (by decide) 0 (by decide)⟩

/-- C5: Address decomposition — `access_data` computes
`set_index = (addr >> b) & ((1 << s) - 1)` (0 when `s = 0`) and
`tag = addr >> (b + s)`, and the behaviour of `access_data` depends on
the address only through this pure decomposition. -/
theorem claim_c5_address_decomposition (s b addr : Nat) :
    (set_index s b addr = (addr >>> b) &&& ((1 <<< s) - 1))
    ∧ (tag_bits s b addr = addr >>> (b + s))
    ∧ (s = 0 → set_index s b addr = 0)
    ∧ (∀ (cfg : Config) (st : SimState) (a a' : Nat),
        set_index cfg.s cfg.b a = set_index cfg.s cfg.b a' →
        tag_bits cfg.s cfg.b a = tag_bits cfg.s cfg.b a' →
        access_data cfg st a = access_data cfg st a') := by
  refine ⟨?_, rfl, ?_, ?_⟩
  · unfold set_index set_mask
    rw [Nat.one_shiftLeft]
    split
    · rfl
    · have hs : s = 0 := by omega
      subst hs
      norm_num
  · intro hs
    subst hs
    unfold set_index set_mask
    simp
  · intro cfg st a a' h1 h2
    simp only [access_data, h1, h2]

/-- C5 witness: with `s = 0, b = 1`, addresses 1 and 0 share set index
and tag, so `access_data` treats them identically. -/
theorem claim_c5_address_decomposition_witness :
    set_index 0 1 5 = 0
    ∧ access_data ⟨0, 1, 1⟩ (initial_state ⟨0, 1, 1⟩) 1
        = access_data ⟨0, 1, 1⟩ (initial_state ⟨0, 1, 1⟩) 0 :=
  ⟨(claim_c5_address_decomposition 0 1 5).2.2.1 rfl,
   (claim_c5_address_decomposition 0 1 5).2.2.2 ⟨0, 1, 1⟩
     (initial_state ⟨0, 1, 1⟩) 1 0 (by decide) (by decide)⟩

/-- C6: Construction failure semantics — `construct s E b` (the `main`
argument check followed by `init_cache`) fails whenever `s ≥ 64`
(index-range overflow) or `E ≤ 0`, and on success yields `2^s` sets of
`E` lines each, all invalid. -/
theorem claim_c6_construction (s E b : Int) :
    (64 ≤ s → construct s E b = none)
    ∧ (E ≤ 0 → construct s E b = none)
    ∧ (∀ c, construct s E b = some c →
        c.length = 2 ^ s.toNat
        ∧ (∀ ls ∈ c, ls.length = E.toNat)
        ∧ (∀ ls ∈ c, ∀ l ∈ ls, l.valid = false)) := by
  refine ⟨?_, ?_, ?_⟩
  · intro hs
    unfold construct
    split
    · rfl
    · unfold init_cache
      rw [if_pos hs]
  · intro hE
    unfold construct
    rw [if_pos (Or.inr (Or.inl hE))]
  · intro c hc
    unfold construct at hc
    by_cases hbad : s < 0 ∨ E ≤ 0 ∨ b < 0
    · rw [if_pos hbad] at hc
      exact absurd hc (by simp)
    · rw [if_neg hbad] at hc
      unfold init_cache at hc
      by_cases hs : (64 : Int) ≤ s
      · rw [if_pos hs] at hc
        exact absurd hc (by simp)
      · rw [if_neg hs] at hc
        simp only [Option.some.injEq] at hc
        subst hc
        refine ⟨by simp, ?_, ?_⟩
        · intro ls hls
          rw [List.eq_of_mem_replicate hls]
          simp
        · intro ls hls l hl
          rw [List.eq_of_mem_replicate hls] at hl
          rw [List.eq_of_mem_replicate hl]
          rfl

/-- C6 witness: construction fails for `s = 64` and for `E = 0`. -/
theorem claim_c6_construction_witness :
    construct 64 1 0 = none ∧ construct 2 0 0 = none :=
  ⟨(claim_c6_construction 64 1 0).1 (by decide),
   (claim_c6_construction 2 0 0).2.1 (by decide)⟩

/-- C7: Permissive trace handling — a malformed line and an `I` line
produce no `access_data` call and leave the whole state unchanged, and
replay simply continues with the rest of the trace. -/
theorem claim_c7_permissive_trace_handling (cfg : Config) (st : SimState)
    (a : Nat) (sz : Int) (rest : List ParseResult) :
    process_line cfg st ParseResult.malformed = (st, 0)
    ∧ process_line cfg st (ParseResult.parsed 'I' a sz) = (st, 0)
    ∧ replay_trace cfg st (ParseResult.malformed :: rest)
        = replay_trace cfg st rest
    ∧ replay_trace cfg st (ParseResult.parsed 'I' a sz :: rest)
        = replay_trace cfg st rest := by
  refine ⟨rfl, by simp [process_line], ?_, ?_⟩
  · rw [replay_cons]
    simp [process_line]
  · rw [replay_cons]
    simp [process_line]

/-- C8: Line validity is monotone — every line of the fresh cache is
invalid, and any line valid before an `access_data` call is still
valid after it (a valid bit never reverts). -/
theorem claim_c8_valid_monotone (cfg : Config) (st : SimState)
    (addr si i : Nat)
    (hv : ((st.cache.getD si []).getD i line0).valid = true) :
    (∀ ls ∈ (initial_state cfg).cache, ∀ l ∈ ls, l.valid = false)
    ∧ (((access_data cfg st addr).1.cache.getD si []).getD i line0).valid
        = true := by
  constructor
  · intro ls hls l hl
    simp only [initial_state, List.mem_replicate] at hls
    rw [hls.2] at hl
    rw [List.eq_of_mem_replicate hl]
    rfl
  · exact access_valid_mono cfg st addr si i hv

/-- C8 witness: the valid direct-mapped line stays valid across a
further access. -/
theorem claim_c8_valid_monotone_witness :
    (((access_data ⟨0, 1, 0⟩ ⟨[[⟨true, 0, 1⟩]], 0, 1, 0, 1⟩ 0).1.cache.getD
        0 []).getD 0 line0).valid = true :=
  (claim_c8_valid_monotone ⟨0, 1, 0⟩ ⟨[[⟨true, 0, 1⟩]], 0, 1, 0, 1⟩ 0 0 0
    (by decide)).2

/-- C9: Frame property — an `access_data` call touches at most one line
of the target set: the number and lengths of the sets are unchanged
(no allocation), every other set is untouched, and every line of the
target set other than the selected one is untouched. -/
theorem claim_c9_frame (cfg : Config) (st : SimState) (addr : Nat) :
    ∃ k : Nat,
      (access_data cfg st addr).1.cache.length = st.cache.length
      ∧ (∀ j, ((access_data cfg st addr).1.cache.getD j []).length
            = (st.cache.getD j []).length)
      ∧ (∀ j, j ≠ set_index cfg.s cfg.b addr →
          (access_data cfg st addr).1.cache.getD j [] = st.cache.getD j [])
      ∧ (∀ i, i ≠ k →
          ((access_data cfg st addr).1.cache.getD
              (set_index cfg.s cfg.b addr) []).getD i line0
            = (st.cache.getD (set_index cfg.s cfg.b addr) []).getD i line0) := by
  obtain ⟨k, w, hc, _, _⟩ := access_shape cfg st addr
  refine ⟨k, ?_, ?_, ?_, ?_⟩
  · rw [hc, length_modify_at]
  · intro j
    rw [hc]
    by_cases hj : j = set_index cfg.s cfg.b addr
    · by_cases hr : set_index cfg.s cfg.b addr < st.cache.length
      · rw [hj, getD_modify_at_eq _ _ _ _ hr, length_modify_at]
      · rw [modify_at_oob _ _ _ (by omega)]
    · rw [getD_modify_at_ne _ _ _ _ _ hj]
  · intro j hj
    rw [hc, getD_modify_at_ne _ _ _ _ _ hj]
  · intro i hi
    rw [hc]
    by_cases hr : set_index cfg.s cfg.b addr < st.cache.length
    · rw [getD_modify_at_eq _ _ _ _ hr]
      exact getD_modify_at_ne _ _ _ _ _ hi
    · rw [modify_at_oob _ _ _ (by omega)]

/-- C9 witness: with two sets, an access to set 0 leaves set 1
untouched. -/
theorem claim_c9_frame_witness :
    (access_data ⟨1, 1, 0⟩ (initial_state ⟨1, 1, 0⟩) 0).1.cache.getD 1 []
      = (initial_state ⟨1, 1, 0⟩).cache.getD 1 [] := by
  obtain ⟨k, h1, h2, h3, h4⟩ :=
    claim_c9_frame ⟨1, 1, 0⟩ (initial_state ⟨1, 1, 0⟩) 0
  exact h3 1 (by decide)

/-- C10 counterexample: the claim fails as stated because `use_counter`
is a 64-bit counter.  After replaying exactly `2^64` copies of `L 0,1`
from the fresh cache under `s=0, E=1, b=0`, the (reachable) state has a
valid line whose `last_used` is 0 — not at least 1 — and `use_counter`
has wrapped to 0 instead of having increased by one per call. -/
theorem claim_c10_counterexample :
    (((replay_trace cfg10 (initial_state cfg10)
        (List.replicate W64 op10)).1.cache.getD 0 []).getD 0 line0).valid = true
    ∧ (((replay_trace cfg10 (initial_state cfg10)
        (List.replicate W64 op10)).1.cache.getD 0 []).getD 0 line0).last_used = 0
    ∧ (replay_trace cfg10 (initial_state cfg10)
        (List.replicate W64 op10)).1.use_counter = 0 := by
  rw [wrap10]
  refine ⟨rfl, ?_, ?_⟩ <;> simp [st10, Nat.mod_self]

/-- C10 (amended): as long as the total number of `access_data` calls
stays below `2^64`, the use counter equals the number of calls made
(so it increases by exactly one per call), every valid line's
`last_used` lies between 1 and the current counter, and valid lines of
one set carry pairwise distinct stamps (so the LRU victim is unique
and the lowest-index tie-break never fires from such states). -/
theorem claim_c10_counter_invariants (cfg : Config) (trace : List ParseResult)
    (hlt : (replay_trace cfg (initial_state cfg) trace).2 < W64) :
    ((replay_trace cfg (initial_state cfg) trace).1.use_counter
        = (replay_trace cfg (initial_state cfg) trace).2)
    ∧ (∀ ls ∈ (replay_trace cfg (initial_state cfg) trace).1.cache,
        ∀ l ∈ ls, l.valid = true →
          1 ≤ l.last_used
          ∧ l.last_used
              ≤ (replay_trace cfg (initial_state cfg) trace).1.use_counter)
    ∧ (∀ ls ∈ (replay_trace cfg (initial_state cfg) trace).1.cache,
        ∀ i j, i < j → j < ls.length →
          (ls.getD i line0).valid = true → (ls.getD j line0).valid = true →
          (ls.getD i line0).last_used ≠ (ls.getD j line0).last_used) := by
  obtain ⟨⟨hb, hd⟩, huc⟩ := replay_stampinv cfg trace (initial_state cfg)
    (initial_stampinv cfg) (by simpa [initial_state] using hlt)
  exact ⟨by simpa [initial_state] using huc, hb, hd⟩

/-- C10 witness: a four-access trace under `s=1, E=2, b=0` ends with
`use_counter` equal to the number of accesses. -/
theorem claim_c10_counter_invariants_witness :
    (replay_trace ⟨1, 2, 0⟩ (initial_state ⟨1, 2, 0⟩)
        [ParseResult.parsed 'L' 0 1, ParseResult.parsed 'S' 1 1,
         ParseResult.parsed 'M' 2 1]).1.use_counter
      = (replay_trace ⟨1, 2, 0⟩ (initial_state ⟨1, 2, 0⟩)
        [ParseResult.parsed 'L' 0 1, ParseResult.parsed 'S' 1 1,
         ParseResult.parsed 'M' 2 1]).2 :=
  (claim_c10_counter_invariants ⟨1, 2, 0⟩
    [ParseResult.parsed 'L' 0 1, ParseResult.parsed 'S' 1 1,
     ParseResult.parsed 'M' 2 1] (by decide)).1
